import Mathlib

/-!
Verification of the core of the `track` sound engine (Rust sources in
`src/`): the ProTracker-style module decoder and sequencer (`promod.rs`),
the lazy signal transforms (`dsp.rs`), and the envelope / polyphonic voice
pool (`sound.rs`).

Embedding conventions:
* machine integers (`u8`, `u16`, `u32`, `usize`) are embedded as `ℕ`
  (the source never relies on wraparound on the verified paths);
* `f32` values are embedded as `ℚ` with exact arithmetic; every concrete
  evaluation appearing in a theorem below was checked to coincide with the
  IEEE-754 single-precision result of the source expression (the inputs
  involved make every intermediate rounding exact);
* where IEEE special values (infinity, NaN) decide the behaviour
  (`Interpolator::get` with a length-1 source) a dedicated type `FP`
  models them explicitly;
* fallible operations (stream reads, map lookups that `unwrap`, slice
  indexing) are embedded in `Option`, `none` modelling a read failure or
  a Rust panic.
-/

/-! ## Effects (`promod.rs`, `Effect::from`) -/

/-- The `Effect` enum of `promod.rs`. -/
inductive Effect where
  | unknown : Effect
  | volumeSlide (up down : ℕ) : Effect
  | setVolume (volume : ℕ) : Effect
  | patternBreak (division : ℕ) : Effect
  | fineVolumeSlideUp (up : ℕ) : Effect
  | fineVolumeSlideDown (down : ℕ) : Effect
  | setTicksPerDivision (tpd : ℕ) : Effect
  | setBeatsPerMinute (bpm : ℕ) : Effect
deriving DecidableEq, Repr

/-- `Effect::from(v)` of `promod.rs` (the argument is the low 12 bits of a
cell; the source takes a `u16` and masks nibbles exactly as written here). -/
def effectFrom (v : ℕ) : Effect :=
  let a := (v >>> 8) &&& 0xf
  let b := (v >>> 4) &&& 0xf
  let c := (v >>> 0) &&& 0xf
  let z := b * 16 + c
  match a with
  | 0xa => Effect.volumeSlide b c
  | 0xc => Effect.setVolume z
  | 0xd => Effect.patternBreak (b * 10 + c)
  | 0xe =>
    match b with
    | 0xa => Effect.fineVolumeSlideUp c
    | 0xb => Effect.fineVolumeSlideDown c
    | _ => Effect.unknown
  | 0xf =>
    let z := if z = 0 then 1 else z
    if z ≤ 32 then Effect.setTicksPerDivision z
    else Effect.setBeatsPerMinute z
  | _ => Effect.unknown

/-- Effect dispatch as the spec words it (§4.2 / claim C3): top nibble `a`,
middle `b`, low `c` of a 12-bit value, with the case list given there.
This is the spec-side definition of the refinement claim C3, to be compared
with `effectFrom`. -/
def effectSpecified (v : ℕ) : Effect :=
  let a := v / 256
  let b := (v / 16) % 16
  let c := v % 16
  if a = 0xa then Effect.volumeSlide b c
  else if a = 0xc then Effect.setVolume (b * 16 + c)
  else if a = 0xd then Effect.patternBreak (b * 10 + c)
  else if a = 0xe ∧ b = 0xa then Effect.fineVolumeSlideUp c
  else if a = 0xe ∧ b = 0xb then Effect.fineVolumeSlideDown c
  else if a = 0xf then
    let z := b * 16 + c
    let z := if z = 0 then 1 else z
    if z ≤ 32 then Effect.setTicksPerDivision z
    else Effect.setBeatsPerMinute z
  else Effect.unknown

/-! ## Player timing (`promod.rs`, `Player::_dpm`, `_tick_left_reset`,
`_division_left_reset`)

The source computes in `f32` and truncates with `as usize`.  For the
parameters appearing in the claims (`bpm = 125`, `tpd = 6`,
`rate = 44100`) the `f32` computation is exact at every step
(`24·125/6 = 500`, `(60/500)·44100 = 5292.0` and `5292/6 = 882.0` are
representable), so the exact-rational embedding below returns the very
integers the compiled code produces. -/

/-- `Player::_dpm`: divisions per minute. -/
def dpm (native_bpm native_tpd : ℚ) : ℚ :=
  (24 * native_bpm) / native_tpd

/-- `Player::_division_left_reset`: value stored into `division_left`
(`as usize` on a nonnegative `f32` truncates toward zero). -/
def divisionLeftReset (native_bpm native_tpd sample_rate : ℚ) : ℕ :=
  (⌊(60 / dpm native_bpm native_tpd) * sample_rate⌋).toNat

/-- `Player::_tick_left_reset`: value stored into `tick_left`. -/
def tickLeftReset (native_bpm native_tpd sample_rate : ℚ) : ℕ :=
  let in_division := (60 / dpm native_bpm native_tpd) * sample_rate
  let in_tick := in_division / native_tpd
  (⌊in_tick⌋).toNat

/-! ## Division advance (`promod.rs`, `Player::_next_division`) -/

/-- The row-selection logic of `Player::_next_division`: the pair
`(next_row, advance_pattern)` chosen at a division boundary, from the
pending pattern-break target and the current row.  (The source then sets
`self.row := next_row` and calls `_load_row`, which indexes
`patterns[pattern].rows[row]`.) -/
def nextDivisionRow (incoming_break : Option ℕ) (row : ℕ) : ℕ × Bool :=
  match incoming_break with
  | some d => (d, true)
  | none => if row ≥ 63 then (0, true) else (row + 1, false)

/-! ## Byte-stream readers (`Module::load` / `Sample::parse_header`)

`Module::load` reads from a `File`; the embedding reads from a `List ℕ`
of byte values, `none` modelling an I/O error (truncated stream). -/

def readU8 : List ℕ → Option (ℕ × List ℕ)
  | [] => none
  | b :: rest => some (b, rest)

def readU16be (l : List ℕ) : Option (ℕ × List ℕ) := do
  let (hi, l) ← readU8 l
  let (lo, l) ← readU8 l
  pure (hi * 256 + lo, l)

def readU32be (l : List ℕ) : Option (ℕ × List ℕ) := do
  let (b0, l) ← readU8 l
  let (b1, l) ← readU8 l
  let (b2, l) ← readU8 l
  let (b3, l) ← readU8 l
  pure (((b0 * 256 + b1) * 256 + b2) * 256 + b3, l)

def readExact (n : ℕ) (l : List ℕ) : Option (List ℕ × List ℕ) :=
  if n ≤ l.length then some (l.take n, l.drop n) else none

/-! ## Patterns (`Module::load`, pattern loop)

A pattern is read as 64 rows of 4 big-endian 32-bit cells. -/

/-- The packed 32-bit cell (`Data` in `promod.rs`). -/
structure Cell where
  val : ℕ
deriving DecidableEq, Repr

structure Row where
  channels : List Cell
deriving DecidableEq, Repr

structure Pattern where
  rows : List Row
deriving DecidableEq, Repr

/-- The inner `for _cid in 0..4` loop of the pattern reader. -/
def parseCells : ℕ → List ℕ → Option (List Cell × List ℕ)
  | 0, l => some ([], l)
  | n + 1, l => do
    let (c, l) ← readU32be l
    let (cs, l) ← parseCells n l
    pure (Cell.mk c :: cs, l)

/-- The `for _rid in 0..64` loop of the pattern reader. -/
def parseRows : ℕ → List ℕ → Option (List Row × List ℕ)
  | 0, l => some ([], l)
  | n + 1, l => do
    let (cs, l) ← parseCells 4 l
    let (rs, l) ← parseRows n l
    pure (Row.mk cs :: rs, l)

/-- One pattern as built by `Module::load`: exactly 64 rows. -/
def parsePattern (l : List ℕ) : Option (Pattern × List ℕ) := do
  let (rs, l) ← parseRows 64 l
  pure (Pattern.mk rs, l)

/-! ## Sample headers (`promod.rs`, `Sample::parse_header`) -/

/-- Is `b` a UTF-8 continuation byte (`0x80..=0xBF`)? -/
def utf8ContByte (b : ℕ) : Bool :=
  decide (0x80 ≤ b ∧ b ≤ 0xbf)

/-- UTF-8 validity of a byte sequence (RFC 3629 ranges), modelling Rust's
`std::str::from_utf8` succeeding in `Sample::parse_header`. -/
def utf8Valid : List ℕ → Bool
  | [] => true
  | b :: rest =>
    if b ≤ 0x7f then utf8Valid rest
    else if 0xc2 ≤ b ∧ b ≤ 0xdf then
      match rest with
      | c1 :: rest1 => utf8ContByte c1 && utf8Valid rest1
      | [] => false
    else if b = 0xe0 then
      match rest with
      | c1 :: c2 :: rest1 =>
        decide (0xa0 ≤ c1 ∧ c1 ≤ 0xbf) && utf8ContByte c2 && utf8Valid rest1
      | _ => false
    else if (0xe1 ≤ b ∧ b ≤ 0xec) ∨ b = 0xee ∨ b = 0xef then
      match rest with
      | c1 :: c2 :: rest1 => utf8ContByte c1 && utf8ContByte c2 && utf8Valid rest1
      | _ => false
    else if b = 0xed then
      match rest with
      | c1 :: c2 :: rest1 =>
        decide (0x80 ≤ c1 ∧ c1 ≤ 0x9f) && utf8ContByte c2 && utf8Valid rest1
      | _ => false
    else if b = 0xf0 then
      match rest with
      | c1 :: c2 :: c3 :: rest1 =>
        decide (0x90 ≤ c1 ∧ c1 ≤ 0xbf) && utf8ContByte c2 && utf8ContByte c3 &&
          utf8Valid rest1
      | _ => false
    else if 0xf1 ≤ b ∧ b ≤ 0xf3 then
      match rest with
      | c1 :: c2 :: c3 :: rest1 =>
        utf8ContByte c1 && utf8ContByte c2 && utf8ContByte c3 && utf8Valid rest1
      | _ => false
    else if b = 0xf4 then
      match rest with
      | c1 :: c2 :: c3 :: rest1 =>
        decide (0x80 ≤ c1 ∧ c1 ≤ 0x8f) && utf8ContByte c2 && utf8ContByte c3 &&
          utf8Valid rest1
      | _ => false
    else false

/-- `trim_end_matches(char::from(0))` on the raw name bytes. -/
def dropTrailingNuls (l : List ℕ) : List ℕ :=
  (l.reverse.dropWhile (fun b => b == 0)).reverse

/-- The `Sample` struct of `promod.rs` (PCM data as exact rationals). -/
structure Sample where
  name : List ℕ
  length : ℕ
  finetune : ℕ
  volume : ℕ
  repeat_start : ℕ
  repeat_length : ℕ
  data : List ℚ
deriving DecidableEq

/-- `Sample::parse_header`: 22-byte name (must be valid UTF-8, trailing
NULs trimmed), big-endian 16-bit length-in-words, one finetune byte, one
volume byte (stored as read — note: no capping), big-endian loop start and
loop length, and a zero-filled data buffer of `length * 2` entries. -/
def parseHeader (l : List ℕ) : Option (Sample × List ℕ) := do
  let (nameBytes, l) ← readExact 22 l
  if utf8Valid nameBytes then
    let (length, l) ← readU16be l
    let (finetune, l) ← readU8 l
    let (volume, l) ← readU8 l
    let (repeat_start, l) ← readU16be l
    let (repeat_length, l) ← readU16be l
    pure ({ name := dropTrailingNuls nameBytes
            length := length
            finetune := finetune
            volume := volume
            repeat_start := repeat_start
            repeat_length := repeat_length
            data := List.replicate (length * 2) (0 : ℚ) }, l)
  else none

/-! ## `f32` with IEEE special values (`dsp.rs`)

`Interpolator::get` relies on IEEE-754 semantics when the source signal
has length 1: `(target_length-1)/0.0` is `+∞` (or `0.0/0.0 = NaN` when
`target_length = 1`), `x/∞ = 0`, and Rust's saturating `as usize` cast
maps `NaN` to 0.  `FP` models a float as either a finite exact rational
or one of `+∞`, `-∞`, `NaN`.  Finite arithmetic is exact (no rounding);
signed zero is not distinguished — neither matters on the verified
paths, where every finite intermediate is exactly representable or the
result is decided purely by the special values. -/

inductive FP where
  | fin (q : ℚ) : FP
  | inf : FP
  | ninf : FP
  | nan : FP
deriving DecidableEq, Repr

/-- IEEE division on `FP` (finite/finite division is exact). -/
def FP.div : FP → FP → FP
  | FP.fin a, FP.fin b =>
    if b = 0 then
      if a = 0 then FP.nan else if 0 < a then FP.inf else FP.ninf
    else FP.fin (a / b)
  | FP.fin _, FP.inf => FP.fin 0
  | FP.fin _, FP.ninf => FP.fin 0
  | FP.inf, FP.fin b => if 0 ≤ b then FP.inf else FP.ninf
  | FP.ninf, FP.fin b => if 0 ≤ b then FP.ninf else FP.inf
  | FP.inf, FP.inf => FP.nan
  | FP.inf, FP.ninf => FP.nan
  | FP.ninf, FP.inf => FP.nan
  | FP.ninf, FP.ninf => FP.nan
  | FP.nan, _ => FP.nan
  | _, FP.nan => FP.nan

/-- IEEE subtraction on `FP`. -/
def FP.sub : FP → FP → FP
  | FP.fin a, FP.fin b => FP.fin (a - b)
  | FP.inf, FP.fin _ => FP.inf
  | FP.ninf, FP.fin _ => FP.ninf
  | FP.fin _, FP.inf => FP.ninf
  | FP.fin _, FP.ninf => FP.inf
  | FP.inf, FP.ninf => FP.inf
  | FP.ninf, FP.inf => FP.ninf
  | FP.inf, FP.inf => FP.nan
  | FP.ninf, FP.ninf => FP.nan
  | FP.nan, _ => FP.nan
  | _, FP.nan => FP.nan

/-- IEEE addition on `FP`. -/
def FP.add : FP → FP → FP
  | FP.fin a, FP.fin b => FP.fin (a + b)
  | FP.inf, FP.fin _ => FP.inf
  | FP.ninf, FP.fin _ => FP.ninf
  | FP.fin _, FP.inf => FP.inf
  | FP.fin _, FP.ninf => FP.ninf
  | FP.inf, FP.inf => FP.inf
  | FP.ninf, FP.ninf => FP.ninf
  | FP.inf, FP.ninf => FP.nan
  | FP.ninf, FP.inf => FP.nan
  | FP.nan, _ => FP.nan
  | _, FP.nan => FP.nan

/-- IEEE multiplication on `FP`. -/
def FP.mul : FP → FP → FP
  | FP.fin a, FP.fin b => FP.fin (a * b)
  | FP.inf, FP.fin b => if b = 0 then FP.nan else if 0 < b then FP.inf else FP.ninf
  | FP.fin a, FP.inf => if a = 0 then FP.nan else if 0 < a then FP.inf else FP.ninf
  | FP.ninf, FP.fin b => if b = 0 then FP.nan else if 0 < b then FP.ninf else FP.inf
  | FP.fin a, FP.ninf => if a = 0 then FP.nan else if 0 < a then FP.ninf else FP.inf
  | FP.inf, FP.inf => FP.inf
  | FP.ninf, FP.ninf => FP.inf
  | FP.inf, FP.ninf => FP.ninf
  | FP.ninf, FP.inf => FP.ninf
  | FP.nan, _ => FP.nan
  | _, FP.nan => FP.nan

/-- `f32::floor`. -/
def FP.floorFP : FP → FP
  | FP.fin q => FP.fin (⌊q⌋ : ℤ)
  | FP.inf => FP.inf
  | FP.ninf => FP.ninf
  | FP.nan => FP.nan

/-- Rust's saturating `as usize` cast of an `f32`: truncation toward zero,
negative values and `NaN` map to 0, values past `usize::MAX` saturate. -/
def FP.toUsize : FP → ℕ
  | FP.fin q => if q < 0 then 0 else min (⌊q⌋).toNat (2 ^ 64 - 1)
  | FP.inf => 2 ^ 64 - 1
  | FP.ninf => 0
  | FP.nan => 0

/-- `Interpolator::get` of `dsp.rs` over a concrete `f32` source signal
(a `List ℚ`); `src.length = tlen` would be the interpolator's own length.
`none` models a Rust panic from an out-of-range index into the underlying
signal; for the sample kind `f32`, `mult_weigh` is multiplication and
`add_saturated` is addition. -/
def interpGet (src : List ℚ) (tlen ix : ℕ) : Option FP :=
  if src.length = 0 then some (FP.fin 0) else
  let ratio := FP.div (FP.fin ((tlen - 1 : ℕ) : ℚ)) (FP.fin ((src.length - 1 : ℕ) : ℚ))
  let uix := FP.div (FP.fin (ix : ℚ)) ratio
  let uix0 := uix.floorFP.toUsize
  let uix1 := uix0 + 1
  if uix0 = src.length - 1 then (src.get? uix0).map FP.fin
  else
    let duix0 := FP.sub uix (FP.fin (uix0 : ℚ))
    let duix1 := FP.sub (FP.fin 1) duix0
    do
      let uv0 ← src.get? uix0
      let uv1 ← src.get? uix1
      pure (FP.add (FP.mul (FP.fin uv0) duix1) (FP.mul (FP.fin uv1) duix0))

/-! ## Sample conversion (`dsp.rs`, `SampleConvertFrom<i8> for f32`)

The source steps are exact in `f32` at the extreme inputs; the embedding
computes them exactly in `ℚ`. -/

/-- `f32::sample_convert_from(t: i8)`. -/
def sampleConvertFromI8 (t : ℤ) : ℚ :=
  let f : ℚ := (t : ℚ)
  let f := f + 128
  let f := f / 255
  let f := f - 0.5
  let f := f * 2
  f

/-- `input.convert::<f32>().iter().collect()`: the `Converter` transform
materialised over a whole `i8` signal. -/
def convertList (src : List ℤ) : List ℚ :=
  src.map sampleConvertFromI8

/-! ## ADSR envelope (`sound.rs`) -/

structure ADSRParams where
  a : ℚ
  d : ℚ
  s_level : ℚ
  r : ℚ
deriving DecidableEq

inductive ADSRState where
  | inactive : ADSRState
  | attackDecay : ADSRState
  | sustain : ADSRState
  | release : ADSRState
deriving DecidableEq, Repr

structure ADSR where
  t : ℚ
  state : ADSRState
  p : ADSRParams
deriving DecidableEq

/-- `lerp` of `sound.rs`. -/
def lerp (a b v : ℚ) : ℚ :=
  (b - a) * v + a

/-- `Envelope::trigger_start for ADSR`. -/
def ADSR.triggerStart (s : ADSR) : ADSR :=
  { s with t := 0, state := ADSRState.attackDecay }

/-- `Envelope::trigger_end for ADSR`. -/
def ADSR.triggerEnd (s : ADSR) : ADSR :=
  { s with t := 0, state := ADSRState.release }

/-- `Envelope::next for ADSR`: returns the reported level (if any) and
the successor state.  The source reads `t` before incrementing `self.t`,
so all branch tests use the pre-increment time, exactly as here. -/
def ADSR.next (s : ADSR) (delta : ℚ) : Option ℚ × ADSR :=
  let t := s.t
  let p := s.p
  match s.state with
  | ADSRState.inactive => (none, s)
  | ADSRState.attackDecay =>
    let s1 := { s with t := s.t + delta }
    if t < p.a then (some (lerp 0 1 (t / p.a)), s1)
    else
      let t1 := t - p.a
      if t1 < p.d then (some (lerp 1 p.s_level (t1 / p.d)), s1)
      else (some p.s_level, { s1 with state := ADSRState.sustain })
  | ADSRState.sustain => (some p.s_level, s)
  | ADSRState.release =>
    let s1 := { s with t := s.t + delta }
    if t ≥ p.r then (none, { s1 with state := ADSRState.inactive })
    else (some (lerp p.s_level 0 (t / p.r)), s1)

/-! ## Polyphonic voice pool (`sound.rs`, `PolyphonicGenerator`)

`BTreeMap<NoteApprox, _>` is embedded as an association list with
`ℕ` keys (the quantized frequency); the list order plays the role of the
map's iteration order, which no verified property depends on.  The voice
type `E` stays abstract: the factory `f`, `trigger_start`, `trigger_end`
and `Generator::next` are passed in as functions. -/

/-- `NoteApprox::from(Note)`: the frequency (`f32`, embedded as `ℚ`)
times 10, cast `as u32` (saturating: negatives to 0, truncation). -/
def noteApprox (freq : ℚ) : ℕ :=
  min (⌊freq * 10⌋).toNat (2 ^ 32 - 1)

/-- `BTreeMap::contains_key`. -/
def containsKey (k : ℕ) (l : List (ℕ × α)) : Bool :=
  l.any (fun p => p.1 == k)

/-- `BTreeMap::get`. -/
def lookupKey (k : ℕ) (l : List (ℕ × α)) : Option α :=
  (l.find? (fun p => p.1 == k)).map (fun p => p.2)

/-- `BTreeMap::remove` (a map has at most one entry per key; on the list
embedding every matching entry is dropped). -/
def removeKey (k : ℕ) (l : List (ℕ × α)) : List (ℕ × α) :=
  l.filter (fun p => !(p.1 == k))

/-- `BTreeMap::insert`: replace any entry for `k` by `(k, v)`. -/
def insertKey (k : ℕ) (v : α) (l : List (ℕ × α)) : List (ℕ × α) :=
  (k, v) :: removeKey k l

/-- In-place mutation through `get_mut`: apply `f` to the entry at `k`. -/
def modifyKey (k : ℕ) (f : α → α) (l : List (ℕ × α)) : List (ℕ × α) :=
  l.map (fun p => if p.1 = k then (p.1, f p.2) else p)

/-- `entry(k).or_insert(v)` followed by a mutation `f` of the returned
reference: mutate the existing entry, or insert `(k, f v)`. -/
def entryOrInsertThen (k : ℕ) (v : α) (f : α → α) (l : List (ℕ × α)) :
    List (ℕ × α) :=
  if containsKey k l then modifyKey k f l else (k, f v) :: l

/-- The number of entries stored for key `k`. -/
def keyCount (k : ℕ) (l : List (ℕ × α)) : ℕ :=
  (l.filter (fun p => p.1 == k)).length

/-- The list of keys of the map. -/
def keysOf (l : List (ℕ × α)) : List ℕ :=
  l.map (fun p => p.1)

structure PolyphonicGenerator (E : Type) where
  generators : List (ℕ × E)
  scopes : List (ℕ × List ℚ)
  scope_ix : ℕ

/-- `PolyphonicGenerator::start`: drop any existing voice and scope for
the note's key, insert a fresh zeroed 512-sample scope buffer, build a
voice through the factory and trigger it. -/
def polyStart (f : ℚ → E) (tstart : E → E) (st : PolyphonicGenerator E)
    (n : ℚ) : PolyphonicGenerator E :=
  let nap := noteApprox n
  let (gens, scs) :=
    if containsKey nap st.generators then
      (removeKey nap st.generators, removeKey nap st.scopes)
    else (st.generators, st.scopes)
  let scs := insertKey nap (List.replicate 512 (0 : ℚ)) scs
  let gen := f n
  let gens := entryOrInsertThen nap gen tstart gens
  { st with generators := gens, scopes := scs }

/-- `PolyphonicGenerator::stop`: signal `trigger_end` to the voice for the
note's key, if present; never removes an entry. -/
def polyStop (tend : E → E) (st : PolyphonicGenerator E) (n : ℚ) :
    PolyphonicGenerator E :=
  let nap := noteApprox n
  if containsKey nap st.generators then
    { st with generators := modifyKey nap tend st.generators }
  else st

/-- `buf[ix] = v` on a `Vec`: `none` models the Rust panic when `ix` is
out of range. -/
def setAt (l : List ℚ) (ix : ℕ) (v : ℚ) : Option (List ℚ) :=
  if ix < l.length then some (l.set ix v) else none

/-- The `for (k, g) in self.generators.iter_mut()` loop of
`Generator::next for PolyphonicGenerator`: advance every voice, write its
output into its scope buffer at `ix` (`none` models the `unwrap` panic on
a missing scope or an out-of-range write), and accumulate `v * 0.3`. -/
def polyNextGo (gnext : E → ℚ × E) (ix : ℕ) :
    List (ℕ × E) → List (ℕ × List ℚ) → ℚ →
    Option (List (ℕ × E) × List (ℕ × List ℚ) × ℚ)
  | [], scs, res => some ([], scs, res)
  | (k, g) :: rest, scs, res =>
    let (v, g1) := gnext g
    match lookupKey k scs with
    | none => none
    | some buf =>
      match setAt buf ix v with
      | none => none
      | some buf1 =>
        (polyNextGo gnext ix rest (modifyKey k (fun _ => buf1) scs)
            (res + v * (3 / 10))).map
          (fun r => ((k, g1) :: r.1, r.2.1, r.2.2))

/-- `Generator::next for PolyphonicGenerator`: wrap the shared cursor at
512, write every voice's sample at the cursor, return the attenuated sum. -/
def polyNext (gnext : E → ℚ × E) (st : PolyphonicGenerator E) :
    Option (ℚ × PolyphonicGenerator E) :=
  let six := if 512 ≤ st.scope_ix then 0 else st.scope_ix
  (polyNextGo gnext six st.generators st.scopes 0).map
    (fun r => (r.2.2, { generators := r.1, scopes := r.2.1, scope_ix := six + 1 }))

/-- The implicit invariant of claim C10: every key with a voice has a
scope buffer of length exactly 512. -/
def ScopesInv (st : PolyphonicGenerator E) : Prop :=
  ∀ k ∈ keysOf st.generators,
    ∃ buf, lookupKey k st.scopes = some buf ∧ buf.length = 512

/-- The input signal of the source test `test_convert_i8_f32`. -/
def testConvertInput : List ℤ :=
  [-128, -128, -128, -128, 0, 0, 0, 0, 127, 127, 127, 127]

/-- A 30-byte sample header whose volume byte (offset 25) is 65. -/
def volumeHeaderBytes : List ℕ :=
  List.replicate 22 0 ++ [0, 10, 0, 65, 0, 0, 0, 0]

/-- The `Sample` parsed from `volumeHeaderBytes`. -/
def volumeHeaderSample : Sample :=
  { name := []
    length := 10
    finetune := 0
    volume := 65
    repeat_start := 0
    repeat_length := 0
    data := List.replicate 20 (0 : ℚ) }

/-! ## Claim theorems -/

/-- Claim C1 (code bug): the render path is not out-of-range free.  A cell
with effect value `0xD64` decodes to `PatternBreak` with target row
`6 * 10 + 4 = 64`; at the next division boundary `_next_division` selects
row 64, yet every pattern built by `Module::load` has exactly 64 rows
(valid indices 0..63), so `_load_row` indexes `rows[64]` out of range. -/
theorem c1_patternBreak_row_overruns_pattern :
    effectFrom 0xD64 = Effect.patternBreak 64 ∧
    nextDivisionRow (some 64) 0 = (64, true) ∧
    (parsePattern (List.replicate 1024 0)).map (fun p => p.1.rows.length) =
      some 64 ∧
    ¬(64 < 64) :=
  ⟨by decide, by decide, by decide, by decide⟩

/-- Claim C2 (counterexample): with `bpm = 125`, `tpd = 6`,
`rate = 44100` the per-division reset value is 5292, not 10584 (and the
per-tick value is 882, not 1764): the spec's own formula
`(60/(24·125/6))·44100` evaluates to 5292.  The `f32` computation of the
source is exact here, so the rational embedding returns the compiled
code's values. -/
theorem c2_reset_values_counterexample :
    divisionLeftReset 125 6 44100 = 5292 ∧
    divisionLeftReset 125 6 44100 ≠ 10584 ∧
    tickLeftReset 125 6 44100 = 882 ∧
    tickLeftReset 125 6 44100 ≠ 1764 := by
  have h1 : divisionLeftReset 125 6 44100 = 5292 := by
    norm_num [divisionLeftReset, dpm]; rfl
  have h2 : tickLeftReset 125 6 44100 = 882 := by
    norm_num [tickLeftReset, dpm]; rfl
  refine ⟨h1, by rw [h1]; decide, h2, by rw [h2]; decide⟩

/-- Claim C2 (amended): with `bpm = 125`, `tpd = 6`, `rate = 44100`, the
per-division sample countdown reset value equals 5292 and the per-tick
reset value equals 882. -/
theorem c2_reset_values :
    divisionLeftReset 125 6 44100 = 5292 ∧ tickLeftReset 125 6 44100 = 882 := by
  constructor
  · norm_num [divisionLeftReset, dpm]; rfl
  · norm_num [tickLeftReset, dpm]; rfl

set_option maxHeartbeats 2000000 in
/-- Claim C3: `Effect::from` agrees with the spec's nibble dispatch on
every 12-bit effect value. -/
theorem c3_effect_dispatch (v : ℕ) (h : v < 4096) :
    effectFrom v = effectSpecified v := by
  have key : ∀ a b c : Fin 16,
      effectFrom (a.val * 256 + b.val * 16 + c.val) =
        effectSpecified (a.val * 256 + b.val * 16 + c.val) := by decide
  have hv : v = v / 256 * 256 + v / 16 % 16 * 16 + v % 16 := by omega
  have ha : v / 256 < 16 := by omega
  have hb : v / 16 % 16 < 16 := by omega
  have hc : v % 16 < 16 := by omega
  rw [hv]
  exact key ⟨v / 256, ha⟩ ⟨v / 16 % 16, hb⟩ ⟨v % 16, hc⟩

/-- Witness for C3 at the concrete effect value `0xA23`. -/
theorem c3_effect_dispatch_witness :
    effectFrom 0xA23 = effectSpecified 0xA23 :=
  c3_effect_dispatch 0xA23 (by decide)

/-- Claim C5: the 8-bit-PCM-to-float conversion computes
`((raw + 128) / 255 - 0.5) * 2`, and on the test signal the first four
outputs are exactly `-1` and the last four exactly `1`. -/
theorem c5_convert_i8_f32 :
    (∀ raw : ℤ, sampleConvertFromI8 raw = (((raw : ℚ) + 128) / 255 - 0.5) * 2) ∧
    (convertList testConvertInput).take 4 = List.replicate 4 (-1 : ℚ) ∧
    (convertList testConvertInput).drop 8 = List.replicate 4 (1 : ℚ) := by
  refine ⟨fun raw => rfl, ?_, ?_⟩ <;>
    · norm_num [convertList, testConvertInput, sampleConvertFromI8]
      rfl

/-- Claim C4: resampling a length-1 source behaves as a constant signal:
every `get` below the target length is defined and returns the single
source sample.  The division by zero in `ratio` is harmless: for
`tlen ≥ 2` it yields `+∞`, so `uix = ix/∞ = 0`; for `tlen = 1` it yields
`NaN`, whose `as usize` cast is 0 — either way `uix0 = 0` hits the
right-edge shortcut. -/
theorem c4_resample_length_one_constant (x : ℚ) (tlen ix : ℕ)
    (h : ix < tlen) :
    interpGet [x] tlen ix = some (FP.fin x) := by
  match tlen, h with
  | 1, _ =>
    simp [interpGet, FP.div, FP.floorFP, FP.toUsize]
  | n + 2, _ =>
    have h2 : (0 : ℚ) < (n : ℚ) + 1 := by positivity
    have h1 : ¬((n : ℚ) + 1 = 0) := h2.ne.symm
    simp [interpGet, FP.div, FP.floorFP, FP.toUsize, h1, h2]

/-- Witness for C4: resampling the one-sample signal `[7]` to length 3 and
reading index 1. -/
theorem c4_resample_length_one_constant_witness :
    1 < 3 ∧ interpGet [(7 : ℚ)] 3 1 = some (FP.fin 7) :=
  ⟨by decide, c4_resample_length_one_constant 7 3 1 (by decide)⟩

/-- Helper: a successful `readU8` on `l.drop n` reads the raw byte at
offset `n` and leaves `l.drop (n+1)`. -/
theorem readU8_drop (l : List ℕ) (n b : ℕ) (r : List ℕ)
    (h : readU8 (l.drop n) = some (b, r)) :
    b = l.getD n 0 ∧ r = l.drop (n + 1) := by
  cases hd : l.drop n with
  | nil => rw [hd] at h; simp [readU8] at h
  | cons a t =>
    rw [hd] at h
    simp only [readU8, Option.some.injEq, Prod.mk.injEq] at h
    obtain ⟨hb, hr⟩ := h
    have hget : l[n]? = some a := by
      have h0 : (l.drop n)[0]? = some a := by rw [hd]; simp
      rw [List.getElem?_drop] at h0
      simpa using h0
    have htail : t = l.drop (n + 1) := by
      have h1 := List.tail_drop l n
      rw [hd] at h1
      simpa using h1
    constructor
    · rw [hb.symm]
      simp [List.getD_eq_getElem?_getD, hget]
    · rw [hr.symm]; exact htail

/-- Helper: a successful `readU16be` on `l.drop n` leaves `l.drop (n+2)`. -/
theorem readU16be_drop (l : List ℕ) (n v : ℕ) (r : List ℕ)
    (h : readU16be (l.drop n) = some (v, r)) : r = l.drop (n + 2) := by
  unfold readU16be at h
  cases h1 : readU8 (l.drop n) with
  | none => rw [h1] at h; simp at h
  | some p1 =>
    obtain ⟨b1, r1⟩ := p1
    rw [h1] at h
    obtain ⟨-, hr1⟩ := readU8_drop l n b1 r1 h1
    subst hr1
    simp only [Option.pure_def, Option.bind_eq_bind, Option.some_bind] at h
    cases h2 : readU8 (l.drop (n + 1)) with
    | none => rw [h2] at h; simp at h
    | some p2 =>
      obtain ⟨b2, r2⟩ := p2
      rw [h2] at h
      obtain ⟨-, hr2⟩ := readU8_drop l (n + 1) b2 r2 h2
      simp only [Option.pure_def, Option.bind_eq_bind, Option.some_bind,
        Option.some.injEq, Prod.mk.injEq] at h
      rw [h.2.symm, hr2]

/-- Claim C7 (counterexample): `Sample::parse_header` performs no capping;
a header with volume byte 65 parses successfully into a `Sample` whose
`volume` field is 65, outside 0..=64. -/
theorem c7_volume_not_capped_counterexample :
    (parseHeader volumeHeaderBytes).map (fun p => p.1.volume) = some 65 ∧
    ¬(65 ≤ 64) :=
  ⟨by decide, by decide⟩

/-- Claim C7 (amended): the decoded volume equals the raw header byte at
offset 25 (a value in 0..=255), with no cap applied at load time. -/
theorem c7_volume_is_raw_byte (l : List ℕ) (s : Sample) (r : List ℕ)
    (h : parseHeader l = some (s, r)) :
    s.volume = l.getD 25 0 := by
  unfold parseHeader at h
  cases hre : readExact 22 l with
  | none => rw [hre] at h; simp at h
  | some p =>
    obtain ⟨nb, l22⟩ := p
    rw [hre] at h
    have hl22 : l22 = l.drop 22 := by
      unfold readExact at hre
      split at hre
      · simp only [Option.some.injEq, Prod.mk.injEq] at hre
        exact hre.2.symm ▸ rfl
      · simp at hre
    subst hl22
    simp only [Option.pure_def, Option.bind_eq_bind, Option.some_bind] at h
    by_cases hu : utf8Valid nb = true
    · simp only [hu, if_true] at h
      cases h16 : readU16be (l.drop 22) with
      | none => rw [h16] at h; simp at h
      | some p16 =>
        obtain ⟨len, l24⟩ := p16
        rw [h16] at h
        have hl24 : l24 = l.drop 24 := by
          simpa using readU16be_drop l 22 len l24 h16
        subst hl24
        simp only [Option.pure_def, Option.bind_eq_bind, Option.some_bind] at h
        cases h24 : readU8 (l.drop 24) with
        | none => rw [h24] at h; simp at h
        | some p24 =>
          obtain ⟨ft, l25⟩ := p24
          rw [h24] at h
          obtain ⟨-, hl25⟩ := readU8_drop l 24 ft l25 h24
          subst hl25
          simp only [Option.pure_def, Option.bind_eq_bind, Option.some_bind] at h
          cases h25 : readU8 (l.drop 25) with
          | none => rw [h25] at h; simp at h
          | some p25 =>
            obtain ⟨vol, l26⟩ := p25
            rw [h25] at h
            obtain ⟨hvol, hl26⟩ := readU8_drop l 25 vol l26 h25
            subst hl26
            simp only [Option.pure_def, Option.bind_eq_bind, Option.some_bind] at h
            cases h26 : readU16be (l.drop 26) with
            | none => rw [h26] at h; simp at h
            | some p26 =>
              obtain ⟨rs, l28⟩ := p26
              rw [h26] at h
              simp only [Option.pure_def, Option.bind_eq_bind, Option.some_bind] at h
              cases h28 : readU16be l28 with
              | none => rw [h28] at h; simp at h
              | some p28 =>
                obtain ⟨rl, l30⟩ := p28
                rw [h28] at h
                simp only [Option.pure_def, Option.bind_eq_bind, Option.some_bind,
                  Option.some.injEq, Prod.mk.injEq] at h
                rw [← h.1]
                exact hvol
    · simp only [Bool.not_eq_true] at hu
      simp [hu] at h

/-- Witness for the amended C7 at the concrete header `volumeHeaderBytes`. -/
theorem c7_volume_is_raw_byte_witness :
    volumeHeaderSample.volume = volumeHeaderBytes.getD 25 0 :=
  c7_volume_is_raw_byte volumeHeaderBytes volumeHeaderSample [] (by decide)

/-- Claim C6: shape of the ADSR envelope, for any parameter set with a
sustain level in 0..=1 (the data model's range for levels).  Successive
`next` calls only ever increase the phase-local time `t`, so each phase is
characterised by the reported level as a function of `t`: non-decreasing
on the attack window, non-increasing and bounded below by `s_level` on
the decay window, exactly `s_level` in sustain (state unchanged),
non-increasing and nonnegative on the release window, and `none` with an
absorbing `Inactive` state once the release time is exhausted.
`trigger_start` and `trigger_end` reset `t` and enter the corresponding
phase. -/
theorem c6_adsr_envelope_shape (p : ADSRParams)
    (hs0 : 0 ≤ p.s_level) (hs1 : p.s_level ≤ 1) :
    (∀ t st, ADSR.triggerStart ⟨t, st, p⟩ = ⟨0, ADSRState.attackDecay, p⟩) ∧
    (∀ t st, ADSR.triggerEnd ⟨t, st, p⟩ = ⟨0, ADSRState.release, p⟩) ∧
    (∀ t1 t2 d1 d2 : ℚ, 0 ≤ t1 → t1 ≤ t2 → t2 < p.a →
      ∃ v1 v2, (ADSR.next ⟨t1, ADSRState.attackDecay, p⟩ d1).1 = some v1 ∧
        (ADSR.next ⟨t2, ADSRState.attackDecay, p⟩ d2).1 = some v2 ∧ v1 ≤ v2) ∧
    (∀ t1 t2 d1 d2 : ℚ, p.a ≤ t1 → t1 ≤ t2 → t2 - p.a < p.d →
      ∃ v1 v2, (ADSR.next ⟨t1, ADSRState.attackDecay, p⟩ d1).1 = some v1 ∧
        (ADSR.next ⟨t2, ADSRState.attackDecay, p⟩ d2).1 = some v2 ∧
        v2 ≤ v1 ∧ p.s_level ≤ v2) ∧
    (∀ t δ : ℚ, ADSR.next ⟨t, ADSRState.sustain, p⟩ δ =
      (some p.s_level, ⟨t, ADSRState.sustain, p⟩)) ∧
    (∀ t1 t2 d1 d2 : ℚ, 0 ≤ t1 → t1 ≤ t2 → t2 < p.r →
      ∃ v1 v2, (ADSR.next ⟨t1, ADSRState.release, p⟩ d1).1 = some v1 ∧
        (ADSR.next ⟨t2, ADSRState.release, p⟩ d2).1 = some v2 ∧
        v2 ≤ v1 ∧ 0 ≤ v2) ∧
    (∀ t δ : ℚ, p.r ≤ t → ADSR.next ⟨t, ADSRState.release, p⟩ δ =
      (none, ⟨t + δ, ADSRState.inactive, p⟩)) ∧
    (∀ t δ : ℚ, ADSR.next ⟨t, ADSRState.inactive, p⟩ δ =
      (none, ⟨t, ADSRState.inactive, p⟩)) := by
  refine ⟨fun t st => rfl, fun t st => rfl, ?_, ?_, fun t δ => rfl, ?_, ?_,
    fun t δ => rfl⟩
  · intro t1 t2 d1 d2 h0 h12 h2a
    have ha : 0 < p.a := lt_of_le_of_lt (le_trans h0 h12) h2a
    have h1a : t1 < p.a := lt_of_le_of_lt h12 h2a
    refine ⟨lerp 0 1 (t1 / p.a), lerp 0 1 (t2 / p.a), ?_, ?_, ?_⟩
    · simp [ADSR.next, h1a]
    · simp [ADSR.next, h2a]
    · simp only [lerp]
      have hx : t1 / p.a ≤ t2 / p.a := by gcongr
      nlinarith [hx]
  · intro t1 t2 d1 d2 h1 h12 h2d
    have hna1 : ¬(t1 < p.a) := not_lt.mpr h1
    have hna2 : ¬(t2 < p.a) := not_lt.mpr (le_trans h1 h12)
    have h1d : t1 - p.a < p.d := lt_of_le_of_lt (by linarith) h2d
    have hd : 0 < p.d := lt_of_le_of_lt (by linarith) h2d
    refine ⟨lerp 1 p.s_level ((t1 - p.a) / p.d),
      lerp 1 p.s_level ((t2 - p.a) / p.d), ?_, ?_, ?_, ?_⟩
    · simp [ADSR.next, hna1, h1d]
    · simp [ADSR.next, hna2, h2d]
    · simp only [lerp]
      have hx : (t1 - p.a) / p.d ≤ (t2 - p.a) / p.d := by gcongr
      nlinarith [hx]
    · simp only [lerp]
      have hx2 : (t2 - p.a) / p.d < 1 := (div_lt_one hd).mpr h2d
      nlinarith [hx2]
  · intro t1 t2 d1 d2 h0 h12 h2r
    have hr : 0 < p.r := lt_of_le_of_lt (le_trans h0 h12) h2r
    have hn1 : ¬(t1 ≥ p.r) := not_le.mpr (lt_of_le_of_lt h12 h2r)
    have hn2 : ¬(t2 ≥ p.r) := not_le.mpr h2r
    refine ⟨lerp p.s_level 0 (t1 / p.r), lerp p.s_level 0 (t2 / p.r),
      ?_, ?_, ?_, ?_⟩
    · simp [ADSR.next, hn1]
    · simp [ADSR.next, hn2]
    · simp only [lerp]
      have hx : t1 / p.r ≤ t2 / p.r := by gcongr
      nlinarith [hx]
    · simp only [lerp]
      have hx2 : t2 / p.r < 1 := (div_lt_one hr).mpr h2r
      nlinarith [hx2]
  · intro t δ h
    simp [ADSR.next, h]

/-- Witness for C6 at the parameters `a = d = r = 1`, `s_level = 1/2`:
the sustain phase reports exactly the sustain level. -/
theorem c6_adsr_envelope_shape_witness :
    (ADSR.next ⟨0, ADSRState.sustain, ADSRParams.mk 1 1 (1 / 2) 1⟩ 1).1 =
      some (1 / 2) := by
  have h := c6_adsr_envelope_shape (ADSRParams.mk 1 1 (1 / 2) 1)
    (by norm_num) (by norm_num)
  rw [h.2.2.2.2.1 0 1]

/-- Helper: a map with `containsKey k = false` has no entry with key `k`. -/
theorem containsKey_eq_false_iff (k : ℕ) (l : List (ℕ × α)) :
    containsKey k l = false ↔ ∀ p ∈ l, p.1 ≠ k := by
  simp [containsKey]

/-- Helper: a missing key looks up to `none`. -/
theorem lookupKey_eq_none_of_not_contains (k : ℕ) (l : List (ℕ × α))
    (h : containsKey k l = false) : lookupKey k l = none := by
  rw [containsKey_eq_false_iff] at h
  unfold lookupKey
  rw [List.find?_eq_none.mpr]
  · rfl
  · intro p hp
    simpa using h p hp

/-- Helper: `removeKey` removes the key it is given. -/
theorem containsKey_removeKey (k : ℕ) (l : List (ℕ × α)) :
    containsKey k (removeKey k l) = false := by
  rw [containsKey_eq_false_iff]
  intro p hp
  simp only [removeKey, List.mem_filter, Bool.not_eq_eq_eq_not, Bool.not_true,
    beq_eq_false_iff_ne] at hp
  exact hp.2

theorem lookupKey_cons_self (k : ℕ) (v : α) (l : List (ℕ × α)) :
    lookupKey k ((k, v) :: l) = some v := by
  simp [lookupKey, List.find?_cons]

theorem lookupKey_cons_ne (k k' : ℕ) (v : α) (l : List (ℕ × α)) (h : k' ≠ k) :
    lookupKey k' ((k, v) :: l) = lookupKey k' l := by
  simp [lookupKey, List.find?_cons, Ne.symm h]

theorem lookupKey_removeKey_ne (k k' : ℕ) (l : List (ℕ × α)) (h : k' ≠ k) :
    lookupKey k' (removeKey k l) = lookupKey k' l := by
  induction l with
  | nil => rfl
  | cons p tl ih =>
    obtain ⟨a, b⟩ := p
    rw [removeKey, List.filter_cons]
    by_cases ha : a = k
    · subst ha
      rw [if_neg (by simp)]
      rw [← removeKey, ih, lookupKey_cons_ne a k' b tl h]
    · have hbeq : (!((a : ℕ) == k)) = true := by simp [ha]
      rw [if_pos hbeq, ← removeKey]
      by_cases hk : k' = a
      · subst hk
        rw [lookupKey_cons_self, lookupKey_cons_self]
      · rw [lookupKey_cons_ne a k' b _ hk, lookupKey_cons_ne a k' b tl hk, ih]

theorem lookupKey_insertKey (k k' : ℕ) (v : α) (l : List (ℕ × α)) :
    lookupKey k' (insertKey k v l) =
      if k' = k then some v else lookupKey k' l := by
  by_cases h : k' = k
  · subst h
    rw [insertKey, lookupKey_cons_self, if_pos rfl]
  · rw [insertKey, lookupKey_cons_ne k k' v _ h, lookupKey_removeKey_ne k k' l h,
      if_neg h]

/-- Helper: in-place mutation of one entry leaves the key list unchanged. -/
theorem keysOf_modifyKey (k : ℕ) (f : α → α) (l : List (ℕ × α)) :
    keysOf (modifyKey k f l) = keysOf l := by
  unfold keysOf modifyKey
  rw [List.map_map]
  apply List.map_congr_left
  intro p hp
  by_cases h : p.1 = k <;> simp [h]

theorem lookupKey_modifyKey (k k' : ℕ) (f : α → α) (l : List (ℕ × α)) :
    lookupKey k' (modifyKey k f l) =
      if k' = k then (lookupKey k l).map f else lookupKey k' l := by
  induction l with
  | nil => by_cases h : k' = k <;> simp [modifyKey, lookupKey, h]
  | cons p tl ih =>
    obtain ⟨a, b⟩ := p
    rw [modifyKey, List.map_cons, ← modifyKey]
    by_cases ha : a = k
    · subst ha
      rw [if_pos rfl]
      by_cases hk : k' = a
      · subst hk
        rw [lookupKey_cons_self, lookupKey_cons_self, if_pos rfl]
        rfl
      · rw [lookupKey_cons_ne a k' (f b) _ hk, lookupKey_cons_ne a k' b tl hk, ih,
          if_neg hk, if_neg hk]
    · rw [if_neg ha]
      by_cases hk : k' = a
      · subst hk
        have hne : k' ≠ k := fun h => ha h
        rw [lookupKey_cons_self, lookupKey_cons_self, if_neg hne]
      · rw [lookupKey_cons_ne a k' b _ hk, lookupKey_cons_ne a k' b tl hk, ih]
        by_cases hkk : k' = k
        · subst hkk
          rw [if_pos rfl, if_pos rfl, lookupKey_cons_ne a k' b tl hk]
        · rw [if_neg hkk, if_neg hkk]

theorem keyCount_eq_zero_of_not_contains (k : ℕ) (l : List (ℕ × α))
    (h : containsKey k l = false) : keyCount k l = 0 := by
  rw [containsKey_eq_false_iff] at h
  rw [keyCount, List.length_eq_zero, List.filter_eq_nil_iff]
  intro p hp
  simpa using h p hp

theorem keyCount_cons_of_not_contains (k : ℕ) (v : α) (l : List (ℕ × α))
    (h : containsKey k l = false) :
    keyCount k ((k, v) :: l) = 1 := by
  rw [keyCount, List.filter_cons, if_pos (by simp)]
  have h0 := keyCount_eq_zero_of_not_contains k l h
  rw [keyCount] at h0
  simp [h0]

theorem keyCount_insertKey (k : ℕ) (v : α) (l : List (ℕ × α)) :
    keyCount k (insertKey k v l) = 1 :=
  keyCount_cons_of_not_contains k v (removeKey k l) (containsKey_removeKey k l)

/-- Helper: `entry(k).or_insert(v)` on a map without `k` inserts the
(already mutated) fresh value at the front. -/
theorem entryOrInsertThen_not_contains (k : ℕ) (v : α) (f : α → α)
    (l : List (ℕ × α)) (h : containsKey k l = false) :
    entryOrInsertThen k v f l = (k, f v) :: l := by
  rw [entryOrInsertThen, if_neg]
  simp [h]

/-- Helper: after `polyStart`, the started note's key holds exactly one
freshly-built, freshly-triggered voice and exactly one zeroed 512-sample
scope buffer — independently of the previous pool state. -/
theorem polyStart_key_state (f : ℚ → E) (ts : E → E)
    (st : PolyphonicGenerator E) (n : ℚ) :
    lookupKey (noteApprox n) (polyStart f ts st n).generators =
      some (ts (f n)) ∧
    keyCount (noteApprox n) (polyStart f ts st n).generators = 1 ∧
    lookupKey (noteApprox n) (polyStart f ts st n).scopes =
      some (List.replicate 512 (0 : ℚ)) ∧
    keyCount (noteApprox n) (polyStart f ts st n).scopes = 1 := by
  unfold polyStart
  by_cases h : containsKey (noteApprox n) st.generators
  · simp only [h, if_true]
    rw [entryOrInsertThen_not_contains _ _ _ _
      (containsKey_removeKey (noteApprox n) st.generators)]
    exact ⟨lookupKey_cons_self _ _ _,
      keyCount_cons_of_not_contains _ _ _
        (containsKey_removeKey (noteApprox n) st.generators),
      by rw [lookupKey_insertKey, if_pos rfl],
      keyCount_insertKey _ _ _⟩
  · have hf : containsKey (noteApprox n) st.generators = false := by
      simpa using h
    simp only [hf, Bool.false_eq_true, if_false]
    rw [entryOrInsertThen_not_contains _ _ _ _ hf]
    exact ⟨lookupKey_cons_self _ _ _,
      keyCount_cons_of_not_contains _ _ _ hf,
      by rw [lookupKey_insertKey, if_pos rfl],
      keyCount_insertKey _ _ _⟩

/-- Claim C8: starting `n1` and then `n2` with equal `NoteApprox` keys
discards the first voice and replaces it: the pool then holds exactly one
generator entry and one scope buffer for that key, whose voice is the one
built from `n2` (triggered), never two layered voices. -/
theorem c8_retrigger_replaces_voice (f : ℚ → E) (ts : E → E)
    (st : PolyphonicGenerator E) (n1 n2 : ℚ)
    (_h : noteApprox n1 = noteApprox n2) :
    lookupKey (noteApprox n2)
        (polyStart f ts (polyStart f ts st n1) n2).generators =
      some (ts (f n2)) ∧
    keyCount (noteApprox n2)
        (polyStart f ts (polyStart f ts st n1) n2).generators = 1 ∧
    lookupKey (noteApprox n2)
        (polyStart f ts (polyStart f ts st n1) n2).scopes =
      some (List.replicate 512 (0 : ℚ)) ∧
    keyCount (noteApprox n2)
        (polyStart f ts (polyStart f ts st n1) n2).scopes = 1 :=
  polyStart_key_state f ts (polyStart f ts st n1) n2

/-- Witness for C8: starting the same 440 Hz note twice on an empty pool
of `ℕ`-voices (factory returns 0, triggering is `Nat.succ`) leaves the
single triggered voice `1`. -/
theorem c8_retrigger_replaces_voice_witness :
    lookupKey (noteApprox 440)
        (polyStart (fun _ => (0 : ℕ)) Nat.succ
          (polyStart (fun _ => (0 : ℕ)) Nat.succ ⟨[], [], 0⟩ 440)
          440).generators =
      some 1 :=
  (c8_retrigger_replaces_voice (fun _ => (0 : ℕ)) Nat.succ ⟨[], [], 0⟩
    440 440 rfl).1

/-- Claim C9: `stop` never removes an entry: the scope map and cursor are
untouched, the generator key set is unchanged, a missing key leaves the
whole state unchanged, and a present voice is exactly the old voice with
`trigger_end` applied (other keys' voices untouched). -/
theorem c9_stop_preserves_pool (te : E → E) (st : PolyphonicGenerator E)
    (n : ℚ) :
    (polyStop te st n).scopes = st.scopes ∧
    (polyStop te st n).scope_ix = st.scope_ix ∧
    keysOf (polyStop te st n).generators = keysOf st.generators ∧
    (containsKey (noteApprox n) st.generators = false →
      polyStop te st n = st) ∧
    lookupKey (noteApprox n) (polyStop te st n).generators =
      (lookupKey (noteApprox n) st.generators).map te ∧
    (∀ k, k ≠ noteApprox n →
      lookupKey k (polyStop te st n).generators =
        lookupKey k st.generators) := by
  unfold polyStop
  by_cases h : containsKey (noteApprox n) st.generators
  · simp only [h, if_true]
    refine ⟨by trivial, by trivial, keysOf_modifyKey _ _ _, ?_, ?_, ?_⟩
    · intro hf
      simp at hf
    · rw [lookupKey_modifyKey, if_pos rfl]
    · intro k hk
      rw [lookupKey_modifyKey, if_neg hk]
  · have hf : containsKey (noteApprox n) st.generators = false := by
      simpa using h
    simp only [hf, Bool.false_eq_true, if_false]
    refine ⟨by trivial, by trivial, by trivial, fun _ => by trivial, ?_,
      fun k hk => by trivial⟩
    rw [lookupKey_eq_none_of_not_contains _ _ hf]
    rfl

/-- Witness for C9: stopping a 440 Hz note on a concrete one-voice pool
leaves the scope map unchanged. -/
theorem c9_stop_preserves_pool_witness :
    (polyStop Nat.succ
        (⟨[(4400, 7)], [(4400, List.replicate 512 0)], 3⟩ :
          PolyphonicGenerator ℕ) 440).scopes =
      [(4400, List.replicate 512 0)] :=
  (c9_stop_preserves_pool Nat.succ
    ⟨[(4400, 7)], [(4400, List.replicate 512 0)], 3⟩ 440).1

theorem keysOf_cons (k : ℕ) (v : α) (l : List (ℕ × α)) :
    keysOf ((k, v) :: l) = k :: keysOf l := rfl

/-- Helper: the per-voice loop of `PolyphonicGenerator::next` never hits a
missing scope or an out-of-range write when every voice key has a 512-long
scope buffer and the write index is below 512; it preserves the key list
of the generators and every 512-long scope binding. -/
theorem polyNextGo_sound (gnext : E → ℚ × E) (ix : ℕ) (gens : List (ℕ × E))
    (scs : List (ℕ × List ℚ)) (res : ℚ) (hix : ix < 512)
    (hinv : ∀ k ∈ keysOf gens,
      ∃ buf, lookupKey k scs = some buf ∧ buf.length = 512) :
    ∃ gens1 scs1 res1,
      polyNextGo gnext ix gens scs res = some (gens1, scs1, res1) ∧
      keysOf gens1 = keysOf gens ∧
      ∀ k, (∃ b, lookupKey k scs = some b ∧ b.length = 512) →
        ∃ b, lookupKey k scs1 = some b ∧ b.length = 512 := by
  revert hinv
  induction gens generalizing scs res with
  | nil =>
    intro hinv
    exact ⟨[], scs, res, rfl, rfl, fun k hk => hk⟩
  | cons hd tl ih =>
    intro hinv
    obtain ⟨k, g⟩ := hd
    rcases hvg : gnext g with ⟨v, g1⟩
    obtain ⟨buf, hbuf, hlen⟩ :=
      hinv k (by rw [keysOf_cons]; exact List.mem_cons_self k _)
    have hset : setAt buf ix v = some (buf.set ix v) := by
      rw [setAt, if_pos]
      rw [hlen]
      exact hix
    have hpres : ∀ k2, (∃ b, lookupKey k2 scs = some b ∧ b.length = 512) →
        ∃ b, lookupKey k2 (modifyKey k (fun _ => buf.set ix v) scs) =
          some b ∧ b.length = 512 := by
      intro k2 hk2
      obtain ⟨b, hb, hbl⟩ := hk2
      rw [lookupKey_modifyKey]
      by_cases hkk : k2 = k
      · subst hkk
        rw [if_pos rfl, hb]
        exact ⟨_, rfl, by rw [List.length_set]; exact hlen⟩
      · rw [if_neg hkk]
        exact ⟨b, hb, hbl⟩
    have hinv2 : ∀ k2 ∈ keysOf tl,
        ∃ b, lookupKey k2 (modifyKey k (fun _ => buf.set ix v) scs) =
          some b ∧ b.length = 512 := by
      intro k2 hk2
      refine hpres k2 (hinv k2 ?_)
      rw [keysOf_cons]
      exact List.mem_cons_of_mem k hk2
    obtain ⟨gens1, scs1, res1, hgo, hkeys, hpres1⟩ :=
      ih (modifyKey k (fun _ => buf.set ix v) scs) (res + v * (3 / 10)) hinv2
    refine ⟨(k, g1) :: gens1, scs1, res1, ?_, ?_,
      fun k2 hk2 => hpres1 k2 (hpres k2 hk2)⟩
    · simp only [polyNextGo, hvg, hbuf, hset, hgo]
      rfl
    · rw [keysOf_cons, keysOf_cons, hkeys]

theorem mem_keysOf_removeKey (k k0 : ℕ) (l : List (ℕ × α))
    (h : k ∈ keysOf (removeKey k0 l)) : k ≠ k0 ∧ k ∈ keysOf l := by
  simp only [keysOf, removeKey, List.mem_map, List.mem_filter,
    Bool.not_eq_eq_eq_not, Bool.not_true, beq_eq_false_iff_ne] at h
  obtain ⟨p, ⟨hpl, hpk⟩, hpe⟩ := h
  subst hpe
  refine ⟨hpk, ?_⟩
  unfold keysOf
  exact List.mem_map.mpr ⟨p, hpl, rfl⟩

theorem ne_of_mem_keysOf_not_contains (k k0 : ℕ) (l : List (ℕ × α))
    (hc : containsKey k0 l = false) (h : k ∈ keysOf l) : k ≠ k0 := by
  rw [containsKey_eq_false_iff] at hc
  simp only [keysOf, List.mem_map] at h
  obtain ⟨p, hp, hpe⟩ := h
  subst hpe
  exact hc p hp

/-- Claim C10: the implicit pool invariant — every voice key has a scope
buffer of length exactly 512 — makes the write index of `next` always
below 512 and every scope lookup and buffer write of `next` succeed, and
it is preserved by `next`, `start` and `stop`. -/
theorem c10_scope_invariant (gnext : E → ℚ × E) (f : ℚ → E) (ts te : E → E)
    (st : PolyphonicGenerator E) (n : ℚ) (hinv : ScopesInv st) :
    (if 512 ≤ st.scope_ix then 0 else st.scope_ix) < 512 ∧
    (polyNext gnext st).isSome ∧
    (∀ r st1, polyNext gnext st = some (r, st1) → ScopesInv st1) ∧
    ScopesInv (polyStart f ts st n) ∧
    ScopesInv (polyStop te st n) := by
  have hix : (if 512 ≤ st.scope_ix then 0 else st.scope_ix) < 512 := by
    split
    · norm_num
    · omega
  obtain ⟨gens1, scs1, res1, hgo, hkeys, hpres⟩ :=
    polyNextGo_sound gnext _ st.generators st.scopes 0 hix hinv
  have hnext : polyNext gnext st = some (res1,
      ⟨gens1, scs1, (if 512 ≤ st.scope_ix then 0 else st.scope_ix) + 1⟩) := by
    rw [polyNext, hgo]
    rfl
  refine ⟨hix, ?_, ?_, ?_, ?_⟩
  · rw [hnext]
    rfl
  · intro r st1 h
    rw [hnext] at h
    simp only [Option.some.injEq, Prod.mk.injEq] at h
    rw [← h.2]
    intro k hk
    simp only at hk
    rw [hkeys] at hk
    exact hpres k (hinv k hk)
  · unfold polyStart
    by_cases h : containsKey (noteApprox n) st.generators
    · simp only [h, if_true]
      rw [entryOrInsertThen_not_contains _ _ _ _
        (containsKey_removeKey (noteApprox n) st.generators)]
      intro k hk
      simp only [keysOf_cons] at hk
      rcases List.mem_cons.mp hk with hke | hkm
      · subst hke
        refine ⟨List.replicate 512 (0 : ℚ), ?_, List.length_replicate 512 0⟩
        simp only
        rw [lookupKey_insertKey, if_pos rfl]
      · obtain ⟨hne, hmem⟩ :=
          mem_keysOf_removeKey k (noteApprox n) st.generators hkm
        obtain ⟨buf, hbuf, hlen⟩ := hinv k hmem
        refine ⟨buf, ?_, hlen⟩
        simp only
        rw [lookupKey_insertKey, if_neg hne,
          lookupKey_removeKey_ne _ _ _ hne]
        exact hbuf
    · have hf : containsKey (noteApprox n) st.generators = false := by
        simpa using h
      simp only [hf, Bool.false_eq_true, if_false]
      rw [entryOrInsertThen_not_contains _ _ _ _ hf]
      intro k hk
      simp only [keysOf_cons] at hk
      rcases List.mem_cons.mp hk with hke | hkm
      · subst hke
        refine ⟨List.replicate 512 (0 : ℚ), ?_, List.length_replicate 512 0⟩
        simp only
        rw [lookupKey_insertKey, if_pos rfl]
      · have hne := ne_of_mem_keysOf_not_contains k (noteApprox n)
          st.generators hf hkm
        obtain ⟨buf, hbuf, hlen⟩ := hinv k hkm
        refine ⟨buf, ?_, hlen⟩
        simp only
        rw [lookupKey_insertKey, if_neg hne]
        exact hbuf
  · unfold polyStop
    by_cases h : containsKey (noteApprox n) st.generators
    · simp only [h, if_true]
      intro k hk
      simp only [keysOf_modifyKey] at hk
      exact hinv k hk
    · have hf : containsKey (noteApprox n) st.generators = false := by
        simpa using h
      simp only [hf, Bool.false_eq_true, if_false]
      exact hinv

/-- Witness for C10: a concrete one-voice pool with a 512-sample scope
buffer satisfies the invariant, so `next` succeeds on it. -/
theorem c10_scope_invariant_witness :
    (polyNext (fun g => (g, g))
        (⟨[(4400, (0 : ℚ))], [(4400, List.replicate 512 (0 : ℚ))], 0⟩ :
          PolyphonicGenerator ℚ)).isSome := by
  have hinv : ScopesInv
      (⟨[(4400, (0 : ℚ))], [(4400, List.replicate 512 (0 : ℚ))], 0⟩ :
        PolyphonicGenerator ℚ) := by
    intro k hk
    simp only [keysOf, List.map_cons, List.map_nil, List.mem_singleton] at hk
    subst hk
    exact ⟨List.replicate 512 (0 : ℚ), lookupKey_cons_self _ _ _,
      List.length_replicate 512 0⟩
  exact (c10_scope_invariant (fun g => (g, g)) (fun _ => (0 : ℚ)) id id
    _ 440 hinv).2.1
